import Mathlib

/-!
Shallow embedding of the `arcs` discretization core
(`src/core/src/algorithms/approximate.rs`).

Points are pairs of reals, `f64` arithmetic is modelled over `ℝ`, and the
Rust `Iterator` driving the arc approximation is modelled as an explicit
state machine: `ApproximatedArc.next` is the `next` method (returning the
yielded element together with the successor state), and
`ApproximatedArc.toList` is the sequence obtained by driving the iterator
until it is exhausted.

The geometric primitives (`Arc`, `Line`, `Angle`, vector length) live in the
`primitives` module / the `euclid` crate, outside the sources at hand; they
are modelled from the spec (each such definition says so in its doc comment).
The phantom coordinate-space parameter `Space` of the source is erased: it is
a zero-sized compile-time tag with no runtime content.
-/

noncomputable section

namespace Arcs

open Real

/-- Model of `euclid::Angle<f64>`: a scalar wrapping a radian measure
(spec §3).  The source reads the raw measure both through the public field
`radians` and through `get()`. -/
structure Angle where
  radians : ℝ

/-- Modelled from the spec: `Angle::get` of the external angle type returns
the wrapped radian measure. -/
def Angle.get (a : Angle) : ℝ := a.radians

/-- Modelled from the spec: the external angle type supports scalar division
(`Angle / f64`), dividing the radian measure. -/
instance : HDiv Angle ℝ Angle := ⟨fun a s => ⟨a.radians / s⟩⟩

theorem Angle.div_radians (a : Angle) (s : ℝ) : (a / s).radians = a.radians / s :=
  rfl

/-- Model of `euclid::Point2D<f64, Space>`: a pair of coordinates. -/
structure Point2D where
  x : ℝ
  y : ℝ

/-- Modelled from the spec: coordinate-wise difference of points (the source
test computes `piece - arc.centre()`). -/
def Point2D.sub (p q : Point2D) : Point2D := ⟨p.x - q.x, p.y - q.y⟩

/-- Modelled from the spec: Euclidean vector length (spec §1 lists "vector
length" among the external collaborator's operations). -/
def Point2D.length (p : Point2D) : ℝ := Real.sqrt (p.x ^ 2 + p.y ^ 2)

/-- Model of `primitives::Line<Space>`: an ordered pair of points (spec §3). -/
structure Line where
  start : Point2D
  end_ : Point2D

/-- Modelled from the spec: `primitives::Arc<Space>` is defined by a centre, a
non-negative radius, a start angle and a signed sweep angle (spec §3). -/
structure Arc where
  centre : Point2D
  radius : ℝ
  start_angle : Angle
  sweep_angle : Angle

/-- Modelled from the spec: `Arc::point_at` queries the point on the arc's
circle at a swept angle measured relative to the arc's start angle
(spec §4.4: "compute the swept angle `i · Δ` relative to the arc's start
angle, query the arc for the point at that angle"; spec §6: centre + radius
rotated by the angle from the arc's reference direction). -/
def Arc.point_at (arc : Arc) (angle : Angle) : Point2D :=
  ⟨arc.centre.x + arc.radius * Real.cos (arc.start_angle.radians + angle.radians),
   arc.centre.y + arc.radius * Real.sin (arc.start_angle.radians + angle.radians)⟩

/-- Modelled from the spec: `Arc::start`, the arc's start point, is the point
at swept angle 0 (spec §3: `start = point_at(start_angle)` with zero sweep). -/
def Arc.start (arc : Arc) : Point2D := arc.point_at ⟨0⟩

/-- Modelled from the spec: `Arc::end`, the arc's end point, is the point at
swept angle `sweep_angle` (spec §3: `end = point_at(start_angle + sweep_angle)`). -/
def Arc.end_ (arc : Arc) : Point2D := arc.point_at arc.sweep_angle

/-- Model of `iter::once`: the one-element sequence. -/
def once (p : Point2D) : List Point2D := [p]

/-- Model of `Iterator::chain`: concatenation of the two sequences. -/
def chain (xs ys : List Point2D) : List Point2D := xs ++ ys

/-- `impl Approximate for Point2D` (approximate.rs lines 29-35):
`iter::once(*self)`, ignoring the tolerance. -/
def Point2D.approximate (p : Point2D) (_tolerance : ℝ) : List Point2D :=
  once p

/-- `impl Approximate for Line` (approximate.rs lines 37-43):
`iter::once(self.start).chain(iter::once(self.end))`, ignoring the
tolerance. -/
def Line.approximate (l : Line) (_tolerance : ℝ) : List Point2D :=
  chain (once l.start) (once l.end_)

/-- The iterator state of `ApproximatedArc<Space>` (approximate.rs lines
93-98): current index, total step count, per-step angular delta and a copy of
the source arc. -/
structure ApproximatedArc where
  i : ℕ
  steps : ℕ
  step_size : Angle
  arc : Arc

open Classical in
/-- `Arc::approximate` (approximate.rs lines 48-84).  The `f64` operations are
modelled over `ℝ`: `acos` is `Real.arccos`, `f64::max` is `max`, `.ceil()`
is `Int.ceil`, and `.abs() as usize` is `Int.natAbs` (exact on the integral
non-negative values produced here). -/
def Arc.approximate (arc : Arc) (tolerance : ℝ) : ApproximatedArc :=
  let sd : ℕ × Angle :=
    if tolerance ≤ 0 ∨ arc.radius ≤ tolerance then
      (1, arc.sweep_angle)
    else
      let cos_theta_on_two := 1 - tolerance / arc.radius
      let theta := Real.arccos cos_theta_on_two * 2
      let line_segment_count := arc.sweep_angle.get / theta
      let line_segment_count := max line_segment_count 2
      let actual_step := arc.sweep_angle / line_segment_count
      ((Int.ceil line_segment_count).natAbs, actual_step)
  { i := 0, steps := sd.1, step_size := sd.2, arc := arc }

/-- `ApproximatedArc::next` (approximate.rs lines 103-112), as a pure step
function: the yielded element (`none` when exhausted) together with the
state after the call. -/
def ApproximatedArc.next (s : ApproximatedArc) : Option Point2D × ApproximatedArc :=
  if s.i > s.steps then
    (none, s)
  else
    let angle : Angle := ⟨(s.i : ℝ) * s.step_size.radians⟩
    let point := s.arc.point_at angle
    (some point, { s with i := s.i + 1 })

/-- The state after `m` further calls to `next`. -/
def ApproximatedArc.advance (s : ApproximatedArc) : ℕ → ApproximatedArc
  | 0 => s
  | m + 1 => (s.next.2).advance m

/-- The full sequence of points obtained by driving the iterator until `next`
returns `none`. -/
def ApproximatedArc.toList (s : ApproximatedArc) : List Point2D :=
  match h : s.next with
  | (none, _) => []
  | (some p, s') => p :: s'.toList
termination_by s.steps + 1 - s.i
decreasing_by
  simp only [ApproximatedArc.next] at h
  split at h
  · exact absurd h (by simp)
  · simp only [Prod.mk.injEq, Option.some.injEq] at h
    obtain ⟨-, rfl⟩ := h
    simp only
    omega

/-- A concrete arc reaching the general branch with a non-integral
pre-rounding count: radius 2, start angle 0, sweep `5π/3`.  With tolerance 1
the chord angle is `θ = 2·arccos(1/2) = 2π/3`, so the pre-rounding count is
`(5π/3)/(2π/3) = 5/2`. -/
def demoArc : Arc :=
  { centre := ⟨0, 0⟩, radius := 2, start_angle := ⟨0⟩, sweep_angle := ⟨5 * π / 3⟩ }

/-- The mirror image of `demoArc`: the same arc swept in the negative
direction (sweep `-(5π/3)`). -/
def negArc : Arc :=
  { centre := ⟨0, 0⟩, radius := 2, start_angle := ⟨0⟩, sweep_angle := ⟨-(5 * π / 3)⟩ }

/-- A concrete arc with radius 1 and sweep 1 radian, used to instantiate
hypotheses at concrete inputs. -/
def unitArc : Arc :=
  { centre := ⟨0, 0⟩, radius := 1, start_angle := ⟨0⟩, sweep_angle := ⟨1⟩ }

/-- A concrete iterator state that is already exhausted (`i > steps`). -/
def spentState : ApproximatedArc :=
  { i := 2, steps := 1, step_size := ⟨0⟩, arc := unitArc }

theorem ApproximatedArc.next_none (s : ApproximatedArc) (h : s.steps < s.i) :
    s.next = (none, s) := by
  rw [ApproximatedArc.next, if_pos h]

theorem ApproximatedArc.next_some (s : ApproximatedArc) (h : s.i ≤ s.steps) :
    s.next = (some (s.arc.point_at ⟨(s.i : ℝ) * s.step_size.radians⟩),
              { s with i := s.i + 1 }) := by
  rw [ApproximatedArc.next, if_neg (by omega)]

theorem ApproximatedArc.toList_of_exhausted (s : ApproximatedArc) (h : s.steps < s.i) :
    s.toList = [] := by
  rw [ApproximatedArc.toList.eq_def]
  split
  · rfl
  · rename_i p s' heq
    rw [ApproximatedArc.next_none s h] at heq
    simp at heq

theorem ApproximatedArc.toList_cons (s : ApproximatedArc) (h : s.i ≤ s.steps) :
    s.toList = s.arc.point_at ⟨(s.i : ℝ) * s.step_size.radians⟩ ::
      ApproximatedArc.toList { s with i := s.i + 1 } := by
  rw [ApproximatedArc.toList.eq_def]
  split
  · rename_i heq
    rw [ApproximatedArc.next_some s h] at heq
    simp at heq
  · rename_i p s' heq
    rw [ApproximatedArc.next_some s h] at heq
    simp only [Prod.mk.injEq, Option.some.injEq] at heq
    rw [heq.1, heq.2]

/-- Closed form of the driven iterator: from state `s` it yields the points at
swept angles `i·Δ, (i+1)·Δ, …, n·Δ`. -/
theorem ApproximatedArc.toList_eq (s : ApproximatedArc) :
    s.toList = (List.range (s.steps + 1 - s.i)).map
      (fun k => s.arc.point_at ⟨((s.i + k : ℕ) : ℝ) * s.step_size.radians⟩) := by
  by_cases h : s.steps < s.i
  · rw [ApproximatedArc.toList_of_exhausted s h]
    have h0 : s.steps + 1 - s.i = 0 := by omega
    rw [h0]
    rfl
  · push_neg at h
    rw [ApproximatedArc.toList_cons s h]
    rw [ApproximatedArc.toList_eq { s with i := s.i + 1 }]
    have hr : s.steps + 1 - s.i = (s.steps + 1 - (s.i + 1)) + 1 := by omega
    rw [hr, List.range_succ_eq_map]
    simp only [List.map_cons, List.map_map]
    congr 1
    refine List.map_congr_left ?_
    intro a _
    simp only [Function.comp_apply]
    congr 2
    push_cast
    ring
termination_by s.steps + 1 - s.i
decreasing_by
  omega

/-- The sequence produced by `Arc::approximate` in closed form: the points at
swept angles `0, Δ, 2·Δ, …, n·Δ` where `n` is the step count. -/
theorem Arc.approximate_toList (arc : Arc) (t : ℝ) :
    (arc.approximate t).toList = (List.range ((arc.approximate t).steps + 1)).map
      (fun k : ℕ => arc.point_at ⟨(k : ℝ) * (arc.approximate t).step_size.radians⟩) := by
  have h := ApproximatedArc.toList_eq (arc.approximate t)
  have hi : (arc.approximate t).i = 0 := rfl
  have ha : (arc.approximate t).arc = arc := rfl
  rw [hi, ha] at h
  rw [h]
  simp only [Nat.sub_zero, Nat.zero_add]

theorem Arc.approximate_degenerate (arc : Arc) (t : ℝ) (h : t ≤ 0 ∨ arc.radius ≤ t) :
    arc.approximate t = { i := 0, steps := 1, step_size := arc.sweep_angle, arc := arc } := by
  rw [Arc.approximate]
  rw [if_pos h]

theorem Arc.approximate_general (arc : Arc) (t : ℝ) (h : ¬(t ≤ 0 ∨ arc.radius ≤ t)) :
    arc.approximate t =
      { i := 0,
        steps := (Int.ceil (max (arc.sweep_angle.get /
                    (Real.arccos (1 - t / arc.radius) * 2)) 2)).natAbs,
        step_size := arc.sweep_angle / (max (arc.sweep_angle.get /
                    (Real.arccos (1 - t / arc.radius) * 2)) 2),
        arc := arc } := by
  rw [Arc.approximate]
  rw [if_neg h]

theorem Arc.approximate_general_steps (arc : Arc) (t : ℝ) (h : ¬(t ≤ 0 ∨ arc.radius ≤ t)) :
    (arc.approximate t).steps = (Int.ceil (max (arc.sweep_angle.get /
      (Real.arccos (1 - t / arc.radius) * 2)) 2)).natAbs := by
  rw [Arc.approximate_general arc t h]

theorem Arc.approximate_general_delta (arc : Arc) (t : ℝ) (h : ¬(t ≤ 0 ∨ arc.radius ≤ t)) :
    (arc.approximate t).step_size = arc.sweep_angle / (max (arc.sweep_angle.get /
      (Real.arccos (1 - t / arc.radius) * 2)) 2) := by
  rw [Arc.approximate_general arc t h]

theorem Angle.ext_radians (a b : Angle) (h : a.radians = b.radians) : a = b := by
  cases a
  cases b
  simpa using h

lemma arccos_one_half : Real.arccos (1 / 2) = π / 3 := by
  rw [← Real.cos_pi_div_three]
  exact Real.arccos_cos (by positivity) (by linarith [Real.pi_pos])

lemma ceil_five_halves : Int.ceil ((5 : ℝ) / 2) = 3 := by
  rw [Int.ceil_eq_iff]
  constructor <;> norm_num

lemma ceil_two_real : Int.ceil ((2 : ℝ)) = 2 := by
  rw [Int.ceil_eq_iff]
  constructor <;> norm_num

lemma demoArc_not_degenerate : ¬((1 : ℝ) ≤ 0 ∨ demoArc.radius ≤ 1) := by
  simp only [demoArc]
  norm_num

lemma demoArc_count : demoArc.sweep_angle.get /
    (Real.arccos (1 - 1 / demoArc.radius) * 2) = 5 / 2 := by
  have harg : (1 : ℝ) - 1 / demoArc.radius = 1 / 2 := by
    simp only [demoArc]
    norm_num
  have hget : demoArc.sweep_angle.get = 5 * π / 3 := rfl
  rw [hget, harg, arccos_one_half]
  have hπ := Real.pi_pos
  rw [div_eq_iff (by positivity : (π / 3 * 2 : ℝ) ≠ 0)]
  ring

lemma demoArc_approximate :
    demoArc.approximate 1 =
      { i := 0, steps := 3, step_size := ⟨2 * π / 3⟩, arc := demoArc } := by
  rw [Arc.approximate_general demoArc 1 demoArc_not_degenerate]
  rw [demoArc_count]
  have hmax : max ((5 : ℝ) / 2) 2 = 5 / 2 := by norm_num
  rw [hmax, ceil_five_halves]
  simp only [ApproximatedArc.mk.injEq, and_true, true_and]
  refine ⟨rfl, ?_⟩
  refine Angle.ext_radians _ _ ?_
  show demoArc.sweep_angle.radians / ((5 : ℝ) / 2) = 2 * π / 3
  show (5 * π / 3) / ((5 : ℝ) / 2) = 2 * π / 3
  ring

lemma negArc_not_degenerate : ¬((1 : ℝ) ≤ 0 ∨ negArc.radius ≤ 1) := by
  simp only [negArc]
  norm_num

lemma negArc_count : negArc.sweep_angle.get /
    (Real.arccos (1 - 1 / negArc.radius) * 2) = -(5 / 2) := by
  have harg : (1 : ℝ) - 1 / negArc.radius = 1 / 2 := by
    simp only [negArc]
    norm_num
  have hget : negArc.sweep_angle.get = -(5 * π / 3) := rfl
  rw [hget, harg, arccos_one_half]
  have hπ := Real.pi_pos
  rw [div_eq_iff (by positivity : (π / 3 * 2 : ℝ) ≠ 0)]
  ring

lemma negArc_approximate :
    negArc.approximate 1 =
      { i := 0, steps := 2, step_size := ⟨-(5 * π / 3) / 2⟩, arc := negArc } := by
  rw [Arc.approximate_general negArc 1 negArc_not_degenerate]
  rw [negArc_count]
  have hmax : max (-((5 : ℝ) / 2)) 2 = 2 := by norm_num
  rw [hmax, ceil_two_real]
  simp only [ApproximatedArc.mk.injEq, and_true, true_and]
  refine ⟨rfl, ?_⟩
  refine Angle.ext_radians _ _ ?_
  show negArc.sweep_angle.radians / (2 : ℝ) = -(5 * π / 3) / 2
  rfl

/-- Every point the arc generator can yield lies exactly on the arc's circle:
its distance to the centre is `|radius|`. -/
theorem Arc.point_at_dist (arc : Arc) (a : Angle) :
    ((arc.point_at a).sub arc.centre).length = |arc.radius| := by
  simp only [Arc.point_at, Point2D.sub, Point2D.length]
  have hs : (arc.centre.x + arc.radius * cos (arc.start_angle.radians + a.radians)
        - arc.centre.x) ^ 2
      + (arc.centre.y + arc.radius * sin (arc.start_angle.radians + a.radians)
        - arc.centre.y) ^ 2
      = arc.radius ^ 2 := by
    have hp := Real.sin_sq_add_cos_sq (arc.start_angle.radians + a.radians)
    nlinarith [hp]
  rw [hs, Real.sqrt_sq_eq_abs]

lemma demoArc_toList :
    (demoArc.approximate 1).toList =
      [demoArc.point_at ⟨(0 : ℝ) * (2 * π / 3)⟩,
       demoArc.point_at ⟨(1 : ℝ) * (2 * π / 3)⟩,
       demoArc.point_at ⟨(2 : ℝ) * (2 * π / 3)⟩,
       demoArc.point_at ⟨(3 : ℝ) * (2 * π / 3)⟩] := by
  rw [demoArc_approximate, ApproximatedArc.toList_eq]
  show (List.range 4).map _ = _
  rw [show List.range 4 = [0, 1, 2, 3] from rfl]
  simp only [List.map_cons, List.map_nil, List.cons.injEq, and_true]
  refine ⟨?_, ?_, ?_, ?_⟩ <;>
    (first
      | rfl
      | (congr 1; refine Angle.ext_radians _ _ ?_; norm_num))

/-- C1 (code-bug evidence): for `demoArc` with tolerance 1 the first yielded
point is the arc's start point, but the last yielded point is NOT the arc's
end point: the per-step delta is `sweep / (5/2)` while the step count is
`⌈5/2⌉ = 3`, so the final point sits at swept angle `2π ≠ 5π/3`. -/
theorem approximate_demoArc_last_misses_end :
    (demoArc.approximate 1).toList.head? = some demoArc.start ∧
    (demoArc.approximate 1).toList.getLast? ≠ some (Arc.end_ demoArc) := by
  rw [demoArc_toList]
  constructor
  · simp only [List.head?_cons, Option.some.injEq]
    rw [Arc.start]
    congr 1
    refine Angle.ext_radians _ _ ?_
    norm_num
  · show some (demoArc.point_at ⟨(3 : ℝ) * (2 * π / 3)⟩) ≠ some (Arc.end_ demoArc)
    simp only [ne_eq, Option.some.injEq]
    intro h
    have hy := congrArg Point2D.y h
    simp only [demoArc, Arc.end_, Arc.point_at] at hy
    rw [show (0 : ℝ) + 3 * (2 * π / 3) = 2 * π by ring] at hy
    rw [show (0 : ℝ) + 5 * π / 3 = 2 * π - π / 3 by ring] at hy
    rw [Real.sin_two_pi, Real.sin_sub, Real.sin_two_pi, Real.cos_two_pi,
      Real.sin_pi_div_three, Real.cos_pi_div_three] at hy
    have hs3 : 0 < Real.sqrt 3 := Real.sqrt_pos.mpr (by norm_num)
    nlinarith [hy, hs3]

/-- C3 (code-bug evidence): for `negArc` (sweep `-(5π/3)`, radius 2) with
tolerance 1 the code computes 2 steps (signed division makes the pre-clamp
count negative), while the claimed formula `⌈max(|S|/θ, 2)⌉` gives 3. -/
theorem negArc_steps_ignore_magnitude :
    (negArc.approximate 1).steps = 2 ∧
    (Int.ceil (max (|negArc.sweep_angle.get| /
      (Real.arccos (1 - 1 / negArc.radius) * 2)) 2)).natAbs = 3 := by
  constructor
  · rw [negArc_approximate]
  · have habs : |negArc.sweep_angle.get| = 5 * π / 3 := by
      rw [show negArc.sweep_angle.get = -(5 * π / 3) from rfl, abs_neg,
        abs_of_nonneg (by positivity)]
    have harg : (1 : ℝ) - 1 / negArc.radius = 1 / 2 := by
      simp only [negArc]
      norm_num
    rw [habs, harg, arccos_one_half]
    have hπ := Real.pi_pos
    have hc : (5 * π / 3) / (π / 3 * 2) = 5 / 2 := by
      rw [div_eq_iff (by positivity : (π / 3 * 2 : ℝ) ≠ 0)]
      ring
    rw [hc, show max ((5 : ℝ) / 2) 2 = 5 / 2 by norm_num, ceil_five_halves]
    rfl

/-- C4 (code-bug evidence): for `demoArc` with tolerance 1 the step count is
3 but the per-step delta is `2π/3`, not `sweep / 3 = 5π/9`: the delta is
computed from the pre-rounding count `5/2`, so `steps · Δ ≠ sweep`. -/
theorem demoArc_delta_not_sweep_over_steps :
    (demoArc.approximate 1).steps = 3 ∧
    (demoArc.approximate 1).step_size.radians ≠
      demoArc.sweep_angle.radians / (((demoArc.approximate 1).steps : ℕ) : ℝ) := by
  rw [demoArc_approximate]
  refine ⟨rfl, ?_⟩
  show (2 * π / 3 : ℝ) ≠ demoArc.sweep_angle.radians / ((3 : ℕ) : ℝ)
  rw [show demoArc.sweep_angle.radians = 5 * π / 3 from rfl]
  have hπ := Real.pi_pos
  intro h
  push_cast at h
  linarith

/-- C2: for every arc with `radius > tolerance > 0`, every point yielded by
`approximate` has a distance to the arc's centre that differs from the radius
by strictly less than the tolerance (the generated points lie exactly on the
circle, so the difference is 0). -/
theorem approximate_error_bound (arc : Arc) (tolerance : ℝ)
    (h1 : 0 < tolerance) (h2 : tolerance < arc.radius) :
    ∀ p ∈ (arc.approximate tolerance).toList,
      |(p.sub arc.centre).length - arc.radius| < tolerance := by
  intro p hp
  rw [Arc.approximate_toList] at hp
  simp only [List.mem_map] at hp
  obtain ⟨k, -, rfl⟩ := hp
  rw [Arc.point_at_dist]
  have hR : 0 < arc.radius := lt_trans h1 h2
  rw [abs_of_pos hR]
  simpa using h1

/-- Witness for C2: the error bound instantiated at `demoArc` with
tolerance 1. -/
theorem approximate_error_bound_witness :
    (0 : ℝ) < 1 ∧ (1 : ℝ) < demoArc.radius ∧
    ∀ p ∈ (demoArc.approximate 1).toList,
      |(p.sub demoArc.centre).length - demoArc.radius| < 1 :=
  ⟨by norm_num, by simp only [demoArc]; norm_num,
   approximate_error_bound demoArc 1 (by norm_num)
     (by simp only [demoArc]; norm_num)⟩

/-- C5 counterexample: there is no arc and tolerance with
`tolerance > 2·radius` for which the general branch is reached (and hence
none for which the `acos` argument `1 - tolerance/radius` could lie outside
`[-1, 1]`): the guard `radius <= tolerance` already routes every such input
to the degenerate branch. -/
theorem no_acos_argument_out_of_range :
    (∃ (arc : Arc) (tolerance : ℝ),
        2 * arc.radius < tolerance ∧
        ¬(tolerance ≤ 0 ∨ arc.radius ≤ tolerance) ∧
        ¬(-1 ≤ 1 - tolerance / arc.radius ∧ 1 - tolerance / arc.radius ≤ 1)) ↔
      False := by
  rw [iff_false]
  rintro ⟨arc, t, h2R, hbr, -⟩
  push_neg at hbr
  obtain ⟨ht, hrt⟩ := hbr
  linarith

/-- C5 (amended): whenever the tolerance exceeds twice the radius, the
degenerate guard `tolerance <= 0 || radius <= tolerance` fires, so the
arccosine is never evaluated; the result is the single-step fallback. -/
theorem high_tolerance_takes_degenerate_branch (arc : Arc) (tolerance : ℝ)
    (h : 2 * arc.radius < tolerance) :
    arc.approximate tolerance =
      { i := 0, steps := 1, step_size := arc.sweep_angle, arc := arc } := by
  apply Arc.approximate_degenerate
  rcases le_or_lt tolerance 0 with ht | ht
  · exact Or.inl ht
  · right
    rcases le_or_lt arc.radius 0 with hR | hR
    · linarith
    · linarith

/-- Witness for C5's amended theorem: `unitArc` (radius 1) with tolerance 3. -/
theorem high_tolerance_takes_degenerate_branch_witness :
    2 * unitArc.radius < 3 ∧
    unitArc.approximate 3 =
      { i := 0, steps := 1, step_size := unitArc.sweep_angle, arc := unitArc } :=
  ⟨by simp only [unitArc]; norm_num,
   high_tolerance_takes_degenerate_branch unitArc 3
     (by simp only [unitArc]; norm_num)⟩

/-- C6: if the tolerance is `<= 0` or the radius is `<=` the tolerance,
`approximate` uses exactly 1 step whose delta is the entire signed sweep
angle, and the sequence yields exactly the 2 points start and end. -/
theorem degenerate_case_two_points (arc : Arc) (tolerance : ℝ)
    (h : tolerance ≤ 0 ∨ arc.radius ≤ tolerance) :
    (arc.approximate tolerance).steps = 1 ∧
    (arc.approximate tolerance).step_size = arc.sweep_angle ∧
    (arc.approximate tolerance).toList = [arc.start, Arc.end_ arc] := by
  rw [Arc.approximate_degenerate arc tolerance h]
  refine ⟨rfl, rfl, ?_⟩
  rw [ApproximatedArc.toList_eq]
  show (List.range 2).map _ = _
  rw [show List.range 2 = [0, 1] from rfl]
  simp only [List.map_cons, List.map_nil, List.cons.injEq, and_true]
  constructor
  · show arc.point_at ⟨((0 + 0 : ℕ) : ℝ) * arc.sweep_angle.radians⟩ = arc.start
    rw [Arc.start]
    congr 1
    refine Angle.ext_radians _ _ ?_
    norm_num
  · show arc.point_at ⟨((0 + 1 : ℕ) : ℝ) * arc.sweep_angle.radians⟩ = Arc.end_ arc
    rw [Arc.end_]
    congr 1
    refine Angle.ext_radians _ _ ?_
    show ((0 + 1 : ℕ) : ℝ) * arc.sweep_angle.radians = arc.sweep_angle.radians
    norm_num

/-- Witness for C6: `unitArc` with tolerance 0 falls into the degenerate
branch and yields exactly `[start, end]`. -/
theorem degenerate_case_two_points_witness :
    ((0 : ℝ) ≤ 0 ∨ unitArc.radius ≤ 0) ∧
    ((unitArc.approximate 0).steps = 1 ∧
     (unitArc.approximate 0).step_size = unitArc.sweep_angle ∧
     (unitArc.approximate 0).toList = [unitArc.start, Arc.end_ unitArc]) :=
  ⟨Or.inl le_rfl, degenerate_case_two_points unitArc 0 (Or.inl le_rfl)⟩

/-- C7: the generator built by `approximate` yields exactly `steps + 1`
points, the `k`-th being the arc's point at swept angle `k · Δ`; and any
state with `i > steps` is exhausted (`next` returns `none`). -/
theorem generator_yields_n_plus_one_points (arc : Arc) (tolerance : ℝ) :
    (arc.approximate tolerance).toList.length = (arc.approximate tolerance).steps + 1 ∧
    (arc.approximate tolerance).toList =
      (List.range ((arc.approximate tolerance).steps + 1)).map
        (fun k : ℕ =>
          arc.point_at ⟨(k : ℝ) * (arc.approximate tolerance).step_size.radians⟩) ∧
    (∀ s : ApproximatedArc, s.steps < s.i → s.next = (none, s)) := by
  refine ⟨?_, Arc.approximate_toList arc tolerance, ApproximatedArc.next_none⟩
  rw [Arc.approximate_toList]
  rw [List.length_map, List.length_range]

/-- C8: approximating a point yields exactly `[point]` and approximating a
line segment yields exactly `[start, end]`, for every tolerance. -/
theorem point_and_line_approximate_exactly (tolerance : ℝ) (p : Point2D) (l : Line) :
    p.approximate tolerance = [p] ∧ l.approximate tolerance = [l.start, l.end_] :=
  ⟨rfl, rfl⟩

/-- C9: for every arc with a negative sweep angle in the general branch
(`radius > tolerance > 0`), the signed division makes the pre-clamp count
negative, so the clamp to 2.0 wins: the step count is exactly 2 and exactly
3 points are yielded, regardless of the sweep's magnitude or the tolerance. -/
theorem negative_sweep_always_two_steps (arc : Arc) (tolerance : ℝ)
    (h1 : 0 < tolerance) (h2 : tolerance < arc.radius)
    (h3 : arc.sweep_angle.radians < 0) :
    (arc.approximate tolerance).steps = 2 ∧
    (arc.approximate tolerance).toList.length = 3 := by
  have hng : ¬(tolerance ≤ 0 ∨ arc.radius ≤ tolerance) := by
    push_neg
    exact ⟨h1, h2⟩
  have hR : 0 < arc.radius := lt_trans h1 h2
  have harg : (1 : ℝ) - tolerance / arc.radius < 1 := by
    have hq : 0 < tolerance / arc.radius := div_pos h1 hR
    linarith
  have hθ : 0 < Real.arccos (1 - tolerance / arc.radius) * 2 :=
    mul_pos (Real.arccos_pos.mpr harg) two_pos
  have hneg : arc.sweep_angle.get / (Real.arccos (1 - tolerance / arc.radius) * 2) < 0 :=
    div_neg_of_neg_of_pos h3 hθ
  have hmax : max (arc.sweep_angle.get /
      (Real.arccos (1 - tolerance / arc.radius) * 2)) 2 = 2 :=
    max_eq_right (le_of_lt (lt_trans hneg two_pos))
  have hsteps : (arc.approximate tolerance).steps = 2 := by
    rw [Arc.approximate_general_steps arc tolerance hng, hmax, ceil_two_real]
    rfl
  refine ⟨hsteps, ?_⟩
  rw [Arc.approximate_toList, List.length_map, List.length_range, hsteps]

/-- Witness for C9: `negArc` (radius 2, sweep `-(5π/3)`) with tolerance 1. -/
theorem negative_sweep_always_two_steps_witness :
    (0 : ℝ) < 1 ∧ (1 : ℝ) < negArc.radius ∧ negArc.sweep_angle.radians < 0 ∧
    ((negArc.approximate 1).steps = 2 ∧ (negArc.approximate 1).toList.length = 3) :=
  ⟨by norm_num, by simp only [negArc]; norm_num,
   by simp only [negArc]; rw [neg_lt_zero]; positivity,
   negative_sweep_always_two_steps negArc 1 (by norm_num)
     (by simp only [negArc]; norm_num)
     (by simp only [negArc]; rw [neg_lt_zero]; positivity)⟩

/-- C10: once `next` has returned `none`, the state is terminal: every
subsequent call also returns `none` and the index is never incremented
again. -/
theorem exhausted_generator_terminal (s : ApproximatedArc) (h : s.next.1 = none) :
    ∀ m : ℕ, (s.advance m).next.1 = none ∧ (s.advance m).i = s.i := by
  have hgt : s.steps < s.i := by
    by_contra hle
    push_neg at hle
    rw [ApproximatedArc.next_some s hle] at h
    simp at h
  have hstay : ∀ m : ℕ, s.advance m = s := by
    intro m
    induction m with
    | zero => rfl
    | succ m ih =>
      show (s.next.2).advance m = s
      rw [ApproximatedArc.next_none s hgt]
      exact ih
  intro m
  rw [hstay m]
  exact ⟨by rw [ApproximatedArc.next_none s hgt], rfl⟩

/-- Witness for C10: the concrete exhausted state `spentState` (`i = 2`,
`steps = 1`). -/
theorem exhausted_generator_terminal_witness :
    spentState.next.1 = none ∧
    ∀ m : ℕ, (spentState.advance m).next.1 = none ∧
      (spentState.advance m).i = spentState.i := by
  have h : spentState.next.1 = none := by
    rw [ApproximatedArc.next_none spentState (by norm_num [spentState])]
  exact ⟨h, exhausted_generator_terminal spentState h⟩

end Arcs
